import Mathlib

/-!
Verification of the `sos_intrusive` doubly-linked intrusive list
(`src/lib/sos_intrusive/src/list/mod.rs`) and the page-table entry
collaborator (`src/arch/x86_64/memory/entry.rs`).

The pointer graph is shallowly embedded as a heap: a total function from
node identifiers (`Nat`, standing for addresses) to node records. A node
record carries the two intrusive `RawLink` fields (`prev`, `next`, each an
`Option Nat`: `RawLink::none()` is `none`, `RawLink::some(p)` is `some p`)
together with the stored payload. The `List` struct's `head`/`tail`
`RawLink`s and its `length : usize` become fields of `ListState`; a
`ListCursor` is its list together with the `current` link. Every Rust
method is translated line by line into a pure state-passing function.
-/

/-- A node of the intrusive list: the two `RawLink` fields required by the
`Node` trait, plus the stored payload. -/
structure NodeData (α : Type) where
  prev : Option Nat
  next : Option Nat
  val  : α
deriving DecidableEq, Repr

/-- Memory: every node identifier maps to a node record. -/
abbrev Heap (α : Type) := Nat → NodeData α

/-- Pointwise heap update (a store through a raw pointer). -/
def hupd (h : Heap α) (i : Nat) (d : NodeData α) : Heap α :=
  fun j => if j = i then d else h j

/-- `*node.prev_mut() = p` -/
def setPrev (h : Heap α) (i : Nat) (p : Option Nat) : Heap α :=
  hupd h i { h i with prev := p }

/-- `*node.next_mut() = p` -/
def setNext (h : Heap α) (i : Nat) (p : Option Nat) : Heap α :=
  hupd h i { h i with next := p }

/-- The `List<T, N>` struct: head and tail `RawLink`s and the length,
together with the heap the raw links point into. -/
structure ListState (α : Type) where
  heap   : Heap α
  head   : Option Nat
  tail   : Option Nat
  length : Nat

/-- `List::new()`: both links absent, zero length. `d` is the (irrelevant)
content of all untouched memory. -/
def emptyList (d : α) : ListState α :=
  { heap := fun _ => ⟨none, none, d⟩, head := none, tail := none, length := 0 }

/-- `List::len` -/
def listLen (st : ListState α) : Nat := st.length

/-- `List::front`: resolves the head link. -/
def front (st : ListState α) : Option Nat := st.head

/-- `List::back`: resolves the tail link. -/
def back (st : ListState α) : Option Nat := st.tail

/-- `List::front_mut`: resolves the head link mutably. -/
def frontMut (st : ListState α) : Option Nat := st.head

/-- `List::back_mut`: resolves the tail link mutably. -/
def backMut (st : ListState α) : Option Nat := st.tail

/-- `List::is_empty`: `self.head.is_none()`. -/
def isEmpty (st : ListState α) : Bool := st.head.isNone

/-- `List::peek_front`: the source resolves `self.tail` here (mod.rs:244),
despite the name and the doc comment promising the front element. -/
def peekFront (st : ListState α) : Option Nat := st.tail

/-- `List::push_front` (mod.rs:128-153). The pushed item is the node with
identifier `i` and payload `v`. -/
def pushFront (st : ListState α) (i : Nat) (v : α) : ListState α :=
  match st.head with
  | none =>
      { heap := hupd st.heap i ⟨none, none, v⟩
        head := some i, tail := some i, length := st.length + 1 }
  | some hd =>
      let h1 := hupd st.heap i ⟨none, some hd, v⟩
      let h2 := setPrev h1 hd (some i)
      { heap := h2, head := some i, tail := st.tail, length := st.length + 1 }

/-- `List::push_back` (mod.rs:160-185): mirror image of `push_front`. -/
def pushBack (st : ListState α) (i : Nat) (v : α) : ListState α :=
  match st.tail with
  | none =>
      { heap := hupd st.heap i ⟨none, none, v⟩
        head := some i, tail := some i, length := st.length + 1 }
  | some tl =>
      let h1 := hupd st.heap i ⟨some tl, none, v⟩
      let h2 := setNext h1 tl (some i)
      { heap := h2, head := st.head, tail := some i, length := st.length + 1 }

/-- `List::pop_front` (mod.rs:193-212): takes the head link; on a resolved
head node inspects its next link, rewires, decrements the length and
returns the removed node's identifier (the reconstructed owning handle). -/
def popFront (st : ListState α) : Option Nat × ListState α :=
  match st.head with
  | none => (none, { st with head := none })
  | some hd =>
      match (st.heap hd).next with
      | none =>
          (some hd, { st with head := none, tail := none, length := st.length - 1 })
      | some n =>
          (some hd, { st with heap := setPrev st.heap n none
                            , head := some n, length := st.length - 1 })

/-- `List::pop_back` (mod.rs:220-235): mirror image of `pop_front`. -/
def popBack (st : ListState α) : Option Nat × ListState α :=
  match st.tail with
  | none => (none, { st with tail := none })
  | some tl =>
      match (st.heap tl).prev with
      | none =>
          (some tl, { st with head := none, tail := none, length := st.length - 1 })
      | some p =>
          (some tl, { st with heap := setNext st.heap p none
                            , tail := some p, length := st.length - 1 })

/-- `ListCursor`: the borrowed list plus the `current` link. -/
structure Cursor (α : Type) where
  list    : ListState α
  current : Option Nat

/-- `List::cursor`: current starts absent ("before the first element"). -/
def mkCursor (st : ListState α) : Cursor α := ⟨st, none⟩

/-- `ListCursor::next` (mod.rs:271-288). Returns the node moved to. -/
def cursorNext (c : Cursor α) : Option Nat × Cursor α :=
  match c.current with
  | none =>
      match c.list.head with
      | none => (none, { c with current := none })
      | some hd => (some hd, { c with current := some hd })
  | some cur =>
      match (c.list.heap cur).next with
      | none => (none, { c with current := none })
      | some n => (some n, { c with current := some n })

/-- `ListCursor::peek_next` (mod.rs:290-296). -/
def peekNext (c : Cursor α) : Option Nat :=
  match c.current with
  | none => c.list.head
  | some cur => (c.list.heap cur).next

/-- `ListCursor::remove` (mod.rs:298-316). When `current` is absent this is
`pop_front`; otherwise the current node's next link is taken to find the
victim, which is spliced out. Note the source never touches
`self.list.length` on this second path. -/
def cursorRemove (c : Cursor α) : Option Nat × Cursor α :=
  match c.current with
  | none =>
      let r := popFront c.list
      (r.1, ⟨r.2, c.current⟩)
  | some cur =>
      match (c.list.heap cur).next with
      | none => (none, c)
      | some p =>
          let h1 := setNext c.list.heap cur none
          match (h1 p).next with
          | none =>
              (some p, ⟨{ c.list with heap := h1, tail := some cur }, c.current⟩)
          | some n =>
              let h2 := setPrev h1 n (some cur)
              let h3 := setNext h2 cur (some n)
              (some p, ⟨{ c.list with heap := h3 }, c.current⟩)

/-- `ListCursor::find_and_remove` (mod.rs:318-328). The Rust `while` loop
is given explicit fuel; any fuel at least the number of resident nodes
ahead of the cursor reproduces the loop exactly. -/
def findAndRemove (pred : NodeData α → Bool) : Nat → Cursor α → Option Nat × Cursor α
  | 0, c => (none, c)
  | fuel + 1, c =>
      match peekNext c with
      | none => (none, c)
      | some i =>
          if pred (c.list.heap i) then cursorRemove c
          else findAndRemove pred fuel (cursorNext c).2

/-- The frame-address mask from `Entry::pointed_frame` / `Entry::set`. -/
def frameMask : Nat := 0x000ffffffffff000

/-- The u64 complement `!0x000fffff_fffff000` used in the assertion of
`Entry::set`. -/
def frameMaskNot : Nat := 0xfff0000000000fff

/-- `Entry::set` (entry.rs:68-71): asserts the frame address has no bit
outside `frameMask` (a failed assertion is fatal, modelled as `none`),
then stores the address OR-ed with the flag bits. -/
def entrySet (frame : Nat) (flags : Nat) : Option Nat :=
  if frame &&& frameMaskNot = 0 then some (frame ||| flags) else none

/-! ## The list invariant: representation by a chain of identifiers -/

/-- `linksOK h pr ids` states that the nodes `ids` form a well-wired chain
in heap `h`: the first node's prev link equals `pr`, each node's next link
points to its successor in `ids` (the final node's next link is absent),
and each node's prev link points to its predecessor. -/
def linksOK (h : Heap α) : Option Nat → List Nat → Prop
  | _, [] => True
  | pr, i :: rest => (h i).prev = pr ∧ (h i).next = rest.head? ∧ linksOK h (some i) rest

/-- The full list invariant, relative to a witness chain `ids`: head and
tail are first and last of the chain, the stored length is the chain's
length, the chain has no duplicate node (acyclicity), and all links are
wired consistently. -/
def ListRep (st : ListState α) (ids : List Nat) : Prop :=
  st.head = ids.head? ∧ st.tail = ids.getLast? ∧ st.length = ids.length ∧
  ids.Nodup ∧ linksOK st.heap none ids

/-- The list invariant: some chain represents the state. -/
def ListInv (st : ListState α) : Prop := ∃ ids, ListRep st ids

theorem hupd_self (h : Heap α) (i : Nat) (d : NodeData α) : hupd h i d i = d := by
  simp [hupd]

theorem hupd_ne (h : Heap α) (i : Nat) (d : NodeData α) {j : Nat} (hne : j ≠ i) :
    hupd h i d j = h j := by
  simp [hupd, hne]

/-- `linksOK` only reads the heap at members of the chain. -/
theorem linksOK_congr {h h' : Heap α} :
    ∀ (ids : List Nat) (pr : Option Nat), (∀ j ∈ ids, h' j = h j) →
      linksOK h pr ids → linksOK h' pr ids := by
  intro ids
  induction ids with
  | nil => intro pr _ _; trivial
  | cons i rest ih =>
      intro pr hagree hok
      simp only [linksOK] at hok ⊢
      obtain ⟨hp, hn, hrest⟩ := hok
      have hi : h' i = h i := hagree i (by simp)
      exact ⟨by rw [hi]; exact hp, by rw [hi]; exact hn,
             ih (some i) (fun j hj => hagree j (by simp [hj])) hrest⟩

/-- In a well-wired chain the final node's next link is absent. -/
theorem linksOK_getLast_next {h : Heap α} :
    ∀ (ids : List Nat) (pr : Option Nat) (tl : Nat), linksOK h pr ids →
      ids.getLast? = some tl → (h tl).next = none := by
  intro ids
  induction ids with
  | nil => intro pr tl _ hlast; simp at hlast
  | cons a rest ih =>
      intro pr tl hok hlast
      simp only [linksOK] at hok
      cases rest with
      | nil =>
          simp at hlast
          subst hlast
          simpa using hok.2.1
      | cons b t =>
          rw [List.getLast?_cons_cons] at hlast
          exact ih (some a) tl hok.2.2 hlast

/-- In a well-wired chain a member node whose next link is absent is the
final node. -/
theorem linksOK_next_none_mem {h : Heap α} :
    ∀ (ids : List Nat) (pr : Option Nat) (j : Nat), linksOK h pr ids →
      j ∈ ids → (h j).next = none → ids.getLast? = some j := by
  intro ids
  induction ids with
  | nil => intro pr j _ hmem _; simp at hmem
  | cons a rest ih =>
      intro pr j hok hmem hnone
      simp only [linksOK] at hok
      cases rest with
      | nil =>
          simp at hmem
          subst hmem
          simp
      | cons b t =>
          rw [List.getLast?_cons_cons]
          rcases List.mem_cons.mp hmem with rfl | hmem'
          · rw [hok.2.1] at hnone; simp at hnone
          · exact ih (some a) j hok.2.2 hmem' hnone

/-- Extending a well-wired chain by one node at the back: `h'` agrees with
`h` on every chain node whose next link is occupied, turns the final
node's next link to the new node `i`, and wires `i` after the old final
node. -/
theorem linksOK_snoc {h h' : Heap α} {i : Nat} :
    ∀ (ids : List Nat) (pr : Option Nat), ids ≠ [] → linksOK h pr ids →
      (∀ j ∈ ids, (h j).next ≠ none → h' j = h j) →
      (∀ j ∈ ids, (h j).next = none →
        (h' j).prev = (h j).prev ∧ (h' j).next = some i) →
      (h' i).prev = ids.getLast? → (h' i).next = none →
      linksOK h' pr (ids ++ [i]) := by
  intro ids
  induction ids with
  | nil => intro pr hne _ _ _ _ _; exact absurd rfl hne
  | cons a rest ih =>
      intro pr _ hok hkeep hlast hiprev hinext
      simp only [linksOK] at hok
      obtain ⟨hap, han, hrest⟩ := hok
      cases rest with
      | nil =>
          have hanone : (h a).next = none := by simpa using han
          have ha' := hlast a (by simp) hanone
          simp only [List.cons_append, List.nil_append, linksOK]
          refine ⟨by rw [ha'.1, hap], by simpa using ha'.2, ?_, ?_, trivial⟩
          · simpa using hiprev
          · simpa using hinext
      | cons b t =>
          have hasome : (h a).next ≠ none := by
            rw [han]; simp
          have ha' : h' a = h a := hkeep a (by simp) hasome
          rw [List.cons_append]
          refine ⟨by rw [ha', hap], ?_, ?_⟩
          · rw [ha', han]; simp
          · exact ih (some a) (by simp) hrest
              (fun j hj hne => hkeep j (by simp [hj]) hne)
              (fun j hj hnone => hlast j (by simp [hj]) hnone)
              (by rw [hiprev, List.getLast?_cons_cons]) hinext

/-- `push_back` preserves the invariant, appending the fresh node to the
witness chain. -/
theorem rep_pushBack {st : ListState α} {ids : List Nat} (i : Nat) (v : α)
    (hrep : ListRep st ids) (hfresh : i ∉ ids) :
    ListRep (pushBack st i v) (ids ++ [i]) := by
  obtain ⟨hh, ht, hl, hnd, hok⟩ := hrep
  cases ids with
  | nil =>
      have htl : st.tail = none := by simpa using ht
      simp only [pushBack, htl]
      refine ⟨by simp, by simp, by simp [hl], by simp, ?_⟩
      simp only [List.nil_append, linksOK]
      exact ⟨by simp [hupd_self], by simp [hupd_self], trivial⟩
  | cons a rest =>
      have htl : st.tail = some ((a :: rest).getLast (by simp)) := by
        rw [ht, List.getLast?_eq_getLast]
      set tl := (a :: rest).getLast (by simp) with htldef
      have htlmem : tl ∈ a :: rest := List.getLast_mem _
      have htlne : tl ≠ i := fun h => hfresh (h ▸ htlmem)
      have hine : i ∉ a :: rest := hfresh
      simp only [pushBack, htl]
      have htlnext : (st.heap tl).next = none :=
        linksOK_getLast_next (a :: rest) none tl hok
          (by rw [← ht, htl])
      refine ⟨by simpa using hh, (List.getLast?_concat _).symm, by simp [hl], ?_, ?_⟩
      · refine List.Nodup.append hnd (by simp) ?_
        intro x hx hxi
        simp only [List.mem_singleton] at hxi
        subst hxi
        exact hine hx
      · apply linksOK_snoc (h := st.heap) (a :: rest) none (by simp) hok
        · intro j hj hjnext
          have hji : j ≠ i := fun h => hfresh (h ▸ hj)
          have hjtl : j ≠ tl := by
            intro h; exact hjnext (h ▸ htlnext)
          simp only [setNext]
          rw [hupd_ne _ _ _ hjtl, hupd_ne _ _ _ hji]
        · intro j hj hjnone
          have hji : j ≠ i := fun h => hfresh (h ▸ hj)
          have : (a :: rest).getLast? = some j :=
            linksOK_next_none_mem (a :: rest) none j hok hj hjnone
          have hjtl : j = tl := by
            rw [List.getLast?_eq_getLast] at this
            simpa using this.symm
          subst hjtl
          simp only [setNext]
          rw [hupd_self, hupd_ne _ _ _ htlne]
          exact ⟨rfl, rfl⟩
        · simp only [setNext]
          rw [hupd_ne _ _ _ htlne.symm, hupd_self]
          show some tl = (a :: rest).getLast?
          rw [← ht, htl]
        · simp only [setNext]
          rw [hupd_ne _ _ _ htlne.symm, hupd_self]

/-- `push_front` preserves the invariant, consing the fresh node onto the
witness chain. -/
theorem rep_pushFront {st : ListState α} {ids : List Nat} (i : Nat) (v : α)
    (hrep : ListRep st ids) (hfresh : i ∉ ids) :
    ListRep (pushFront st i v) (i :: ids) := by
  obtain ⟨hh, ht, hl, hnd, hok⟩ := hrep
  cases ids with
  | nil =>
      have hhd : st.head = none := by simpa using hh
      simp only [pushFront, hhd]
      refine ⟨by simp, by simp, by simp [hl], by simp, ?_⟩
      simp only [linksOK]
      exact ⟨by simp [hupd_self], by simp [hupd_self], trivial⟩
  | cons hd rest =>
      have hhd : st.head = some hd := by simpa using hh
      have hine : i ≠ hd := fun h => hfresh (h ▸ List.mem_cons_self hd rest)
      have hhdrest : hd ∉ rest := (List.nodup_cons.mp hnd).1
      have hirest : i ∉ rest := fun h => hfresh (List.mem_cons_of_mem _ h)
      simp only [linksOK] at hok
      obtain ⟨hpr, hnx, hrest⟩ := hok
      have h2i : setPrev (hupd st.heap i ⟨none, some hd, v⟩) hd (some i) i
          = ⟨none, some hd, v⟩ := by
        simp only [setPrev]
        rw [hupd_ne _ _ _ hine, hupd_self]
      have h2hd : setPrev (hupd st.heap i ⟨none, some hd, v⟩) hd (some i) hd
          = ⟨some i, (st.heap hd).next, (st.heap hd).val⟩ := by
        simp only [setPrev]
        rw [hupd_self, hupd_ne _ _ _ (Ne.symm hine)]
      simp only [pushFront, hhd]
      refine ⟨by simp, ?_, by simp [hl], List.nodup_cons.mpr ⟨hfresh, hnd⟩, ?_⟩
      · show st.tail = (i :: hd :: rest).getLast?
        rw [List.getLast?_cons_cons]
        exact ht
      · refine ⟨?_, ?_, ?_, ?_, ?_⟩
        · show (setPrev (hupd st.heap i ⟨none, some hd, v⟩) hd (some i) i).prev = none
          rw [h2i]
        · show (setPrev (hupd st.heap i ⟨none, some hd, v⟩) hd (some i) i).next
            = (hd :: rest).head?
          rw [h2i]
          rfl
        · show (setPrev (hupd st.heap i ⟨none, some hd, v⟩) hd (some i) hd).prev = some i
          rw [h2hd]
        · show (setPrev (hupd st.heap i ⟨none, some hd, v⟩) hd (some i) hd).next
            = rest.head?
          rw [h2hd]
          exact hnx
        · refine linksOK_congr rest (some hd) ?_ hrest
          intro j hj
          have hji : j ≠ i := fun h => hirest (h ▸ hj)
          have hjhd : j ≠ hd := fun h => hhdrest (h ▸ hj)
          simp only [setPrev]
          rw [hupd_ne _ _ _ hjhd, hupd_ne _ _ _ hji]

/-- `pop_front` never changes any payload. -/
theorem popFront_val (st : ListState α) (j : Nat) :
    ((popFront st).2.heap j).val = (st.heap j).val := by
  cases hh : st.head with
  | none => simp [popFront, hh]
  | some hd =>
      cases hn : (st.heap hd).next with
      | none => simp [popFront, hh, hn]
      | some n =>
          simp only [popFront, hh, hn]
          simp only [setPrev]
          by_cases hj : j = n
          · subst hj; rw [hupd_self]
          · rw [hupd_ne _ _ _ hj]

/-- A next-link store never changes a payload. -/
theorem setNext_val (h : Heap α) (t : Nat) (x : Option Nat) (j : Nat) :
    (setNext h t x j).val = (h j).val := by
  simp only [setNext]
  by_cases hj : j = t
  · subst hj; rw [hupd_self]
  · rw [hupd_ne _ _ _ hj]

/-- A prev-link store never changes a payload. -/
theorem setPrev_val (h : Heap α) (t : Nat) (x : Option Nat) (j : Nat) :
    (setPrev h t x j).val = (h j).val := by
  simp only [setPrev]
  by_cases hj : j = t
  · subst hj; rw [hupd_self]
  · rw [hupd_ne _ _ _ hj]

/-- `pop_front` on a represented non-empty list returns the chain's first
node and leaves a state represented by the remaining chain. -/
theorem rep_popFront {st : ListState α} {a : Nat} {ids : List Nat}
    (hrep : ListRep st (a :: ids)) :
    (popFront st).1 = some a ∧ ListRep (popFront st).2 ids := by
  obtain ⟨hh, ht, hl, hnd, hok⟩ := hrep
  have hhd : st.head = some a := by simpa using hh
  simp only [linksOK] at hok
  obtain ⟨hprev, hnext, hrest⟩ := hok
  cases ids with
  | nil =>
      have hn : (st.heap a).next = none := by simpa using hnext
      refine ⟨?_, ?_, ?_, ?_, ?_, ?_⟩
      · simp [popFront, hhd, hn]
      · simp [popFront, hhd, hn]
      · simp [popFront, hhd, hn]
      · simp only [popFront, hhd, hn]
        show st.length - 1 = ([] : List Nat).length
        simp only [List.length_cons, List.length_nil] at hl ⊢
        omega
      · simp
      · trivial
  | cons b t =>
      have hn : (st.heap a).next = some b := by simpa using hnext
      have hndbt : (b :: t).Nodup := (List.nodup_cons.mp hnd).2
      have hbt : b ∉ t := (List.nodup_cons.mp hndbt).1
      simp only [linksOK] at hrest
      obtain ⟨hbprev, hbnext, htok⟩ := hrest
      have hb' : setPrev st.heap b none b
          = ⟨none, (st.heap b).next, (st.heap b).val⟩ := by
        simp only [setPrev]
        rw [hupd_self]
      refine ⟨?_, ?_, ?_, ?_, ?_, ?_⟩
      · simp [popFront, hhd, hn]
      · simp [popFront, hhd, hn]
      · simp only [popFront, hhd, hn]
        show st.tail = (b :: t).getLast?
        rw [ht, List.getLast?_cons_cons]
      · simp only [popFront, hhd, hn]
        show st.length - 1 = (b :: t).length
        simp only [List.length_cons] at hl ⊢
        omega
      · exact hndbt
      · simp only [popFront, hhd, hn]
        refine ⟨?_, ?_, ?_⟩
        · show (setPrev st.heap b none b).prev = none
          rw [hb']
        · show (setPrev st.heap b none b).next = t.head?
          rw [hb']
          exact hbnext
        · refine linksOK_congr t (some b) ?_ htok
          intro j hj
          have hjb : j ≠ b := fun h => hbt (h ▸ hj)
          simp only [setPrev]
          rw [hupd_ne _ _ _ hjb]

/-- `push_back` stores the pushed payload at the pushed identifier. -/
theorem pushBack_val_self (st : ListState α) (i : Nat) (v : α) :
    ((pushBack st i v).heap i).val = v := by
  cases htl : st.tail with
  | none => simp [pushBack, htl, hupd_self]
  | some tl =>
      simp only [pushBack, htl]
      rw [setNext_val]
      show ((hupd st.heap i ⟨some tl, none, v⟩) i).val = v
      rw [hupd_self]

/-- `push_back` does not change the payload of any other node. -/
theorem pushBack_val_ne (st : ListState α) (i : Nat) (v : α) {j : Nat}
    (hj : j ≠ i) : ((pushBack st i v).heap j).val = (st.heap j).val := by
  cases htl : st.tail with
  | none =>
      simp only [pushBack, htl]
      show ((hupd st.heap i ⟨none, none, v⟩) j).val = (st.heap j).val
      rw [hupd_ne _ _ _ hj]
  | some tl =>
      simp only [pushBack, htl]
      rw [setNext_val]
      show ((hupd st.heap i ⟨some tl, none, v⟩) j).val = (st.heap j).val
      rw [hupd_ne _ _ _ hj]

/-- `push_front` stores the pushed payload at the pushed identifier. -/
theorem pushFront_val_self (st : ListState α) (i : Nat) (v : α) :
    ((pushFront st i v).heap i).val = v := by
  cases hhd : st.head with
  | none => simp [pushFront, hhd, hupd_self]
  | some hd =>
      simp only [pushFront, hhd]
      rw [setPrev_val]
      show ((hupd st.heap i ⟨none, some hd, v⟩) i).val = v
      rw [hupd_self]

/-- `push_front` does not change the payload of any other node. -/
theorem pushFront_val_ne (st : ListState α) (i : Nat) (v : α) {j : Nat}
    (hj : j ≠ i) : ((pushFront st i v).heap j).val = (st.heap j).val := by
  cases hhd : st.head with
  | none =>
      simp only [pushFront, hhd]
      show ((hupd st.heap i ⟨none, none, v⟩) j).val = (st.heap j).val
      rw [hupd_ne _ _ _ hj]
  | some hd =>
      simp only [pushFront, hhd]
      rw [setPrev_val]
      show ((hupd st.heap i ⟨none, some hd, v⟩) j).val = (st.heap j).val
      rw [hupd_ne _ _ _ hj]

/-- A sequence of `push_back` calls: each pair is (node identifier, payload). -/
def pushAllBack (st : ListState α) : List (Nat × α) → ListState α
  | [] => st
  | (i, v) :: ps => pushAllBack (pushBack st i v) ps

/-- A sequence of `push_front` calls. -/
def pushAllFront (st : ListState α) : List (Nat × α) → ListState α
  | [] => st
  | (i, v) :: ps => pushAllFront (pushFront st i v) ps

/-- Popping `n` elements off the front, collecting the payloads of the
returned owning handles. -/
def popFrontVals (st : ListState α) : Nat → List α
  | 0 => []
  | n + 1 =>
      match popFront st with
      | (none, _) => []
      | (some i, st') => (st'.heap i).val :: popFrontVals st' n

/-- A traversal of the chain from a start link with explicit fuel. -/
def traverseN (h : Heap α) : Option Nat → Nat → List Nat
  | none, _ => []
  | some _, 0 => []
  | some i, fuel + 1 => i :: traverseN h (h i).next fuel

/-- A well-wired chain is recovered exactly by traversal with enough fuel. -/
theorem linksOK_traverseN {h : Heap α} :
    ∀ (ids : List Nat) (pr : Option Nat) (fuel : Nat), linksOK h pr ids →
      ids.length ≤ fuel → traverseN h ids.head? fuel = ids := by
  intro ids
  induction ids with
  | nil => intro pr fuel _ _; simp [traverseN]
  | cons a rest ih =>
      intro pr fuel hok hfuel
      simp only [linksOK] at hok
      obtain ⟨_, hnext, hrest⟩ := hok
      cases fuel with
      | zero => simp at hfuel
      | succ f =>
          show a :: traverseN h (h a).next f = a :: rest
          rw [hnext, ih (some a) f hrest (by simpa using hfuel)]

/-- The chain representing an invariant-satisfying state is unique: it is
forced by the head link and the next links. -/
theorem rep_unique {st : ListState α} {ids : List Nat} (hrep : ListRep st ids) :
    ids = traverseN st.heap st.head st.length := by
  obtain ⟨hh, _, hl, _, hok⟩ := hrep
  rw [hh, hl]
  exact (linksOK_traverseN ids none ids.length hok le_rfl).symm

/-- Pushing a batch at the back preserves the invariant and appends the
batch's identifiers to the witness chain. -/
theorem rep_pushAllBack :
    ∀ (ps : List (Nat × α)) (st : ListState α) (ids : List Nat),
      ListRep st ids → (ids ++ ps.map Prod.fst).Nodup →
      ListRep (pushAllBack st ps) (ids ++ ps.map Prod.fst) := by
  intro ps
  induction ps with
  | nil => intro st ids hrep _; simpa using hrep
  | cons p ps ih =>
      intro st ids hrep hnd
      obtain ⟨i, v⟩ := p
      simp only [List.map_cons] at hnd ⊢
      rw [List.nodup_append] at hnd
      obtain ⟨hnd1, hnd2, hdisj⟩ := hnd
      have hfresh : i ∉ ids := fun hmem => hdisj hmem (List.mem_cons_self i _)
      have hnd' : ((ids ++ [i]) ++ ps.map Prod.fst).Nodup := by
        rw [List.append_assoc, List.singleton_append, List.nodup_append]
        exact ⟨hnd1, hnd2, hdisj⟩
      have := ih (pushBack st i v) (ids ++ [i]) (rep_pushBack i v hrep hfresh) hnd'
      rw [List.append_assoc, List.singleton_append] at this
      exact this

/-- Pushing a batch at the front preserves the invariant and prepends the
batch's identifiers, reversed, to the witness chain. -/
theorem rep_pushAllFront :
    ∀ (ps : List (Nat × α)) (st : ListState α) (ids : List Nat),
      ListRep st ids → (ps.map Prod.fst ++ ids).Nodup →
      ListRep (pushAllFront st ps) ((ps.map Prod.fst).reverse ++ ids) := by
  intro ps
  induction ps with
  | nil => intro st ids hrep _; simpa using hrep
  | cons p ps ih =>
      intro st ids hrep hnd
      obtain ⟨i, v⟩ := p
      simp only [List.map_cons, List.cons_append, List.nodup_cons] at hnd
      obtain ⟨hni, hnd'⟩ := hnd
      have hfresh : i ∉ ids := fun hmem => hni (List.mem_append_right _ hmem)
      have hmid : (ps.map Prod.fst ++ (i :: ids)).Nodup :=
        List.nodup_middle.mpr (List.nodup_cons.mpr ⟨hni, hnd'⟩)
      have := ih (pushFront st i v) (i :: ids) (rep_pushFront i v hrep hfresh) hmid
      simp only [List.map_cons, List.reverse_cons, List.append_assoc,
        List.singleton_append]
      exact this

/-- A batch of back-pushes does not change the payload of a node outside
the batch. -/
theorem pushAllBack_val_ne :
    ∀ (ps : List (Nat × α)) (st : ListState α) (j : Nat),
      j ∉ ps.map Prod.fst →
      ((pushAllBack st ps).heap j).val = (st.heap j).val := by
  intro ps
  induction ps with
  | nil => intro st j _; rfl
  | cons p ps ih =>
      intro st j hj
      obtain ⟨i, v⟩ := p
      simp only [List.map_cons, List.mem_cons] at hj
      push_neg at hj
      show ((pushAllBack (pushBack st i v) ps).heap j).val = (st.heap j).val
      rw [ih (pushBack st i v) j hj.2]
      exact pushBack_val_ne st i v hj.1

/-- A batch of front-pushes does not change the payload of a node outside
the batch. -/
theorem pushAllFront_val_ne :
    ∀ (ps : List (Nat × α)) (st : ListState α) (j : Nat),
      j ∉ ps.map Prod.fst →
      ((pushAllFront st ps).heap j).val = (st.heap j).val := by
  intro ps
  induction ps with
  | nil => intro st j _; rfl
  | cons p ps ih =>
      intro st j hj
      obtain ⟨i, v⟩ := p
      simp only [List.map_cons, List.mem_cons] at hj
      push_neg at hj
      show ((pushAllFront (pushFront st i v) ps).heap j).val = (st.heap j).val
      rw [ih (pushFront st i v) j hj.2]
      exact pushFront_val_ne st i v hj.1

/-- After a batch of back-pushes with distinct identifiers, the payload at
each pushed identifier, read off in batch order, is the batch's payloads. -/
theorem pushAllBack_vals :
    ∀ (ps : List (Nat × α)) (st : ListState α), (ps.map Prod.fst).Nodup →
      (ps.map Prod.fst).map (fun i => ((pushAllBack st ps).heap i).val)
        = ps.map Prod.snd := by
  intro ps
  induction ps with
  | nil => intro st _; rfl
  | cons p ps ih =>
      intro st hnd
      obtain ⟨i, v⟩ := p
      simp only [List.map_cons, List.nodup_cons] at hnd ⊢
      obtain ⟨hni, hnd'⟩ := hnd
      show ((pushAllBack (pushBack st i v) ps).heap i).val
            :: (ps.map Prod.fst).map
                (fun j => ((pushAllBack (pushBack st i v) ps).heap j).val)
          = v :: ps.map Prod.snd
      rw [ih (pushBack st i v) hnd']
      rw [pushAllBack_val_ne ps (pushBack st i v) i hni, pushBack_val_self]

/-- After a batch of front-pushes with distinct identifiers, the payloads
at the pushed identifiers in reversed batch order are the reversed batch
payloads. -/
theorem pushAllFront_vals :
    ∀ (ps : List (Nat × α)) (st : ListState α), (ps.map Prod.fst).Nodup →
      (ps.map Prod.fst).reverse.map
          (fun i => ((pushAllFront st ps).heap i).val)
        = (ps.map Prod.snd).reverse := by
  intro ps
  induction ps with
  | nil => intro st _; rfl
  | cons p ps ih =>
      intro st hnd
      obtain ⟨i, v⟩ := p
      simp only [List.map_cons, List.nodup_cons] at hnd
      obtain ⟨hni, hnd'⟩ := hnd
      simp only [List.map_cons, List.reverse_cons, List.map_append,
        List.map_cons, List.map_nil]
      show (ps.map Prod.fst).reverse.map
            (fun j => ((pushAllFront (pushFront st i v) ps).heap j).val)
          ++ [((pushAllFront (pushFront st i v) ps).heap i).val]
          = (ps.map Prod.snd).reverse ++ [v]
      rw [ih (pushFront st i v) hnd']
      rw [pushAllFront_val_ne ps (pushFront st i v) i hni, pushFront_val_self]

/-- Popping a represented list dry returns exactly the chain's payloads in
chain order. -/
theorem popFrontVals_rep :
    ∀ (ids : List Nat) (st : ListState α), ListRep st ids →
      popFrontVals st ids.length = ids.map (fun i => (st.heap i).val) := by
  intro ids
  induction ids with
  | nil => intro st _; rfl
  | cons a rest ih =>
      intro st hrep
      obtain ⟨h1, h2⟩ := rep_popFront hrep
      cases hpf : popFront st with
      | mk r st' =>
          rw [hpf] at h1 h2
          obtain rfl : r = some a := h1
          show (match popFront st with
                | (none, _) => []
                | (some i, st') => (st'.heap i).val :: popFrontVals st' rest.length)
              = (a :: rest).map fun i => (st.heap i).val
          rw [hpf]
          have hva : ∀ j, (st'.heap j).val = (st.heap j).val := by
            intro j
            have := popFront_val st j
            rw [hpf] at this
            exact this
          show (st'.heap a).val :: popFrontVals st' rest.length
              = (st.heap a).val :: rest.map fun i => (st.heap i).val
          rw [hva, ih st' h2]
          congr 1
          refine List.map_congr_left ?_
          intro j _
          exact hva j

/-- Claim C5: pushing any sequence of values with `push_back` onto an empty
list (value `k` at node identifier `k`) and then popping with `pop_front`
yields the values in their original order, and pushing them with
`push_front` then popping with `pop_front` yields them in reverse order. -/
theorem fifo_order (d : α) (vs : List α) :
    popFrontVals (pushAllBack (emptyList d) vs.enum) vs.length = vs ∧
    popFrontVals (pushAllFront (emptyList d) vs.enum) vs.length = vs.reverse := by
  have hrep0 : ListRep (emptyList d) [] := ⟨rfl, rfl, rfl, List.nodup_nil, trivial⟩
  have hfst : vs.enum.map Prod.fst = List.range vs.length := List.enum_map_fst vs
  have hnodup : (vs.enum.map Prod.fst).Nodup := by
    rw [hfst]; exact List.nodup_range _
  constructor
  · have hrep := rep_pushAllBack vs.enum (emptyList d) [] hrep0
      (by simpa using hnodup)
    simp only [List.nil_append] at hrep
    have hlen : vs.length = (vs.enum.map Prod.fst).length := by
      rw [List.length_map, List.enum_length]
    rw [hlen, popFrontVals_rep _ _ hrep, pushAllBack_vals vs.enum _ hnodup,
      List.enum_map_snd]
  · have hrep := rep_pushAllFront vs.enum (emptyList d) [] hrep0
      (by simpa using hnodup)
    simp only [List.append_nil] at hrep
    have hlen : vs.length = (vs.enum.map Prod.fst).reverse.length := by
      rw [List.length_reverse, List.length_map, List.enum_length]
    rw [hlen, popFrontVals_rep _ _ hrep, pushAllFront_vals vs.enum _ hnodup,
      List.enum_map_snd]

/-- A concrete three-element list: payloads 10, 20, 30 at node
identifiers 0, 1, 2. -/
def sampleList : ListState Nat :=
  pushBack (pushBack (pushBack (emptyList 0) 0 10) 1 20) 2 30

/-- A concrete two-element list: payloads 10, 20 at identifiers 0, 1. -/
def sampleList2 : ListState Nat :=
  pushBack (pushBack (emptyList 0) 0 10) 1 20

/-- Claim C1: on the list [10, 20, 30] the predicate "value = 20" matches
exactly one resident node; `find_and_remove` does remove that node (node 1)
and keeps nodes 0, 2 correctly chained in their original order — but the
stored length remains 3 instead of dropping to 2, because
`ListCursor::remove` never decrements `self.list.length` when the cursor
is on a node. -/
theorem find_and_remove_length_bug :
    (findAndRemove (fun nd => nd.val == 20) 3 (mkCursor sampleList)).1 = some 1 ∧
    (findAndRemove (fun nd => nd.val == 20) 3 (mkCursor sampleList)).2.list.head
      = some 0 ∧
    (findAndRemove (fun nd => nd.val == 20) 3 (mkCursor sampleList)).2.list.tail
      = some 2 ∧
    linksOK
      (findAndRemove (fun nd => nd.val == 20) 3 (mkCursor sampleList)).2.list.heap
      none [0, 2] ∧
    sampleList.length = 3 ∧
    (findAndRemove (fun nd => nd.val == 20) 3 (mkCursor sampleList)).2.list.length
      = 3 := by
  exact ⟨rfl, rfl, rfl, ⟨rfl, rfl, rfl, rfl, trivial⟩, rfl, rfl⟩

/-- Claim C2: the three-element sample list satisfies the invariant, but
after `ListCursor::remove` with the cursor on node 0 (which splices out
node 1) no chain can represent the resulting state: the links force the
chain [0, 2], yet the stored length is still 3. -/
theorem cursor_remove_invariant_bug :
    ListInv sampleList ∧
    ¬ ListInv (cursorRemove (⟨sampleList, some 0⟩ : Cursor Nat)).2.list := by
  constructor
  · exact ⟨[0, 1, 2], rfl, rfl, rfl, by decide,
      ⟨rfl, rfl, rfl, rfl, rfl, rfl, trivial⟩⟩
  · rintro ⟨ids, hrep⟩
    have hids : ids = [0, 2] := (rep_unique hrep).trans rfl
    have hlen := hrep.2.2.1
    rw [hids] at hlen
    exact absurd hlen (by decide)

/-- Claim C7: on the list [10, 20] the accessors `front`/`front_mut`
resolve the head (node 0, payload 10) and `back`/`back_mut` the tail
(node 1, payload 20), `is_empty` is false, but `peek_front` resolves the
tail and returns node 1 — contradicting its own documentation and the
claim that every front-named accessor addresses the head end. -/
theorem peek_front_returns_tail :
    front sampleList2 = some 0 ∧ frontMut sampleList2 = some 0 ∧
    back sampleList2 = some 1 ∧ backMut sampleList2 = some 1 ∧
    isEmpty sampleList2 = false ∧
    (sampleList2.heap 0).val = 10 ∧ (sampleList2.heap 1).val = 20 ∧
    peekFront sampleList2 = some 1 ∧ peekFront sampleList2 ≠ front sampleList2 := by
  exact ⟨rfl, rfl, rfl, rfl, rfl, rfl, rfl, rfl, by decide⟩

/-- Claim C3: `push_front` on an empty list sets the new node's links
absent and makes it head and tail; on a non-empty list it wires the new
node before the old head; `push_back` is the mirror image using the tail;
in all cases the count grows by exactly one (and the operation is total,
hence cannot fail). -/
theorem push_front_back_spec (st : ListState α) (i : Nat) (v : α) :
    (st.head = none →
      ((pushFront st i v).heap i).prev = none ∧
      ((pushFront st i v).heap i).next = none ∧
      (pushFront st i v).head = some i ∧ (pushFront st i v).tail = some i ∧
      (pushFront st i v).length = st.length + 1) ∧
    (∀ hd, st.head = some hd → i ≠ hd →
      ((pushFront st i v).heap i).next = some hd ∧
      ((pushFront st i v).heap i).prev = none ∧
      ((pushFront st i v).heap hd).prev = some i ∧
      (pushFront st i v).head = some i ∧
      (pushFront st i v).tail = st.tail ∧
      (pushFront st i v).length = st.length + 1) ∧
    (st.tail = none →
      ((pushBack st i v).heap i).prev = none ∧
      ((pushBack st i v).heap i).next = none ∧
      (pushBack st i v).head = some i ∧ (pushBack st i v).tail = some i ∧
      (pushBack st i v).length = st.length + 1) ∧
    (∀ tl, st.tail = some tl → i ≠ tl →
      ((pushBack st i v).heap i).prev = some tl ∧
      ((pushBack st i v).heap i).next = none ∧
      ((pushBack st i v).heap tl).next = some i ∧
      (pushBack st i v).tail = some i ∧
      (pushBack st i v).head = st.head ∧
      (pushBack st i v).length = st.length + 1) := by
  refine ⟨?_, ?_, ?_, ?_⟩
  · intro h
    simp [pushFront, h, hupd_self]
  · intro hd h hne
    have hne' : hd ≠ i := Ne.symm hne
    simp [pushFront, h, setPrev, hupd, hne, hne']
  · intro h
    simp [pushBack, h, hupd_self]
  · intro tl h hne
    have hne' : tl ≠ i := Ne.symm hne
    simp [pushBack, h, setNext, hupd, hne, hne']

/-- Witness for C3: pushing node 5 (payload 7) onto an empty list, and
node 1 (payload 20) onto the one-element list [10]. -/
theorem push_front_back_spec_witness :
    ((pushFront (emptyList 0) 5 7).head = some 5 ∧
      (pushFront (emptyList 0) 5 7).length = 1) ∧
    (((pushFront (pushBack (emptyList 0) 0 10) 1 20).heap 1).next = some 0 ∧
      ((pushFront (pushBack (emptyList 0) 0 10) 1 20).heap 0).prev = some 1) ∧
    (((pushBack (pushBack (emptyList 0) 0 10) 1 20).heap 1).prev = some 0 ∧
      (pushBack (pushBack (emptyList 0) 0 10) 1 20).length = 2) := by
  refine ⟨?_, ?_, ?_⟩
  · have h := (push_front_back_spec (emptyList (0 : Nat)) 5 7).1 rfl
    exact ⟨h.2.2.1, (h.2.2.2.2).trans rfl⟩
  · have h := ((push_front_back_spec (pushBack (emptyList 0) 0 10) 1 20).2.1)
      0 rfl (by decide)
    exact ⟨h.1, h.2.2.1⟩
  · have h := ((push_front_back_spec (pushBack (emptyList 0) 0 10) 1 20).2.2.2)
      0 rfl (by decide)
    exact ⟨h.1, (h.2.2.2.2.2).trans rfl⟩

/-- Claim C4: `pop_front`/`pop_back` return `None` on an empty list,
leaving it untouched, and never fail otherwise; on a non-empty list
`pop_front` removes the head node, promotes its next neighbor (clearing
that neighbor's prev link) or empties the list, and decrements the count
by exactly one; `pop_back` is the mirror image. -/
theorem pop_front_back_spec (st : ListState α) :
    (st.head = none → popFront st = (none, st)) ∧
    (st.tail = none → popBack st = (none, st)) ∧
    (∀ hd, st.head = some hd → 0 < st.length →
      (popFront st).1 = some hd ∧
      (popFront st).2.length + 1 = st.length ∧
      ((st.heap hd).next = none →
        (popFront st).2.head = none ∧ (popFront st).2.tail = none) ∧
      (∀ n, (st.heap hd).next = some n →
        (popFront st).2.head = some n ∧
        ((popFront st).2.heap n).prev = none ∧
        (popFront st).2.tail = st.tail)) ∧
    (∀ tl, st.tail = some tl → 0 < st.length →
      (popBack st).1 = some tl ∧
      (popBack st).2.length + 1 = st.length ∧
      ((st.heap tl).prev = none →
        (popBack st).2.head = none ∧ (popBack st).2.tail = none) ∧
      (∀ p, (st.heap tl).prev = some p →
        (popBack st).2.tail = some p ∧
        ((popBack st).2.heap p).next = none ∧
        (popBack st).2.head = st.head)) := by
  obtain ⟨sheap, shead, stail, slen⟩ := st
  refine ⟨?_, ?_, ?_, ?_⟩
  · intro h
    subst h
    rfl
  · intro h
    subst h
    rfl
  · intro hd h hpos
    subst h
    have hpos' : 0 < slen := hpos
    refine ⟨?_, ?_, ?_, ?_⟩
    · cases hn : (sheap hd).next <;> simp [popFront, hn]
    · cases hn : (sheap hd).next <;>
        · simp only [popFront, hn]
          show slen - 1 + 1 = slen
          omega
    · intro hn
      replace hn : (sheap hd).next = none := hn
      simp only [popFront, hn]
      exact ⟨trivial, trivial⟩
    · intro n hn
      replace hn : (sheap hd).next = some n := hn
      simp only [popFront, hn]
      refine ⟨trivial, ?_, trivial⟩
      show (setPrev sheap n none n).prev = none
      simp only [setPrev]
      rw [hupd_self]
  · intro tl h hpos
    subst h
    have hpos' : 0 < slen := hpos
    refine ⟨?_, ?_, ?_, ?_⟩
    · cases hp : (sheap tl).prev <;> simp [popBack, hp]
    · cases hp : (sheap tl).prev <;>
        · simp only [popBack, hp]
          show slen - 1 + 1 = slen
          omega
    · intro hp
      replace hp : (sheap tl).prev = none := hp
      simp only [popBack, hp]
      exact ⟨trivial, trivial⟩
    · intro p hp
      replace hp : (sheap tl).prev = some p := hp
      simp only [popBack, hp]
      refine ⟨trivial, ?_, trivial⟩
      show (setNext sheap p none p).next = none
      simp only [setNext]
      rw [hupd_self]

/-- Witness for C4: popping the empty list and the two-element list
[10, 20]. -/
theorem pop_front_back_spec_witness :
    popFront (emptyList (0 : Nat)) = (none, emptyList 0) ∧
    popBack (emptyList (0 : Nat)) = (none, emptyList 0) ∧
    ((popFront sampleList2).1 = some 0 ∧
      (popFront sampleList2).2.length + 1 = sampleList2.length ∧
      (popFront sampleList2).2.head = some 1) ∧
    ((popBack sampleList2).1 = some 1 ∧
      (popBack sampleList2).2.tail = some 0) := by
  refine ⟨?_, ?_, ?_, ?_⟩
  · exact (pop_front_back_spec (emptyList (0 : Nat))).1 rfl
  · exact (pop_front_back_spec (emptyList (0 : Nat))).2.1 rfl
  · have h := (pop_front_back_spec sampleList2).2.2.1 0 rfl (by decide)
    exact ⟨h.1, h.2.1, (h.2.2.2 1 rfl).1⟩
  · have h := (pop_front_back_spec sampleList2).2.2.2 1 rfl (by decide)
    exact ⟨h.1, (h.2.2.2 0 rfl).1⟩

/-- A next-link store never changes a prev link. -/
theorem setNext_prev (h : Heap α) (t : Nat) (x : Option Nat) (j : Nat) :
    (setNext h t x j).prev = (h j).prev := by
  simp only [setNext]
  by_cases hj : j = t
  · subst hj; rw [hupd_self]
  · rw [hupd_ne _ _ _ hj]

/-- A prev-link store never changes a next link. -/
theorem setPrev_next (h : Heap α) (t : Nat) (x : Option Nat) (j : Nat) :
    (setPrev h t x j).next = (h j).next := by
  simp only [setPrev]
  by_cases hj : j = t
  · subst hj; rw [hupd_self]
  · rw [hupd_ne _ _ _ hj]

/-- A next-link store hits its target. -/
theorem setNext_self (h : Heap α) (t : Nat) (x : Option Nat) :
    (setNext h t x t).next = x := by
  simp only [setNext]
  rw [hupd_self]

/-- A prev-link store hits its target. -/
theorem setPrev_self (h : Heap α) (t : Nat) (x : Option Nat) :
    (setPrev h t x t).prev = x := by
  simp only [setPrev]
  rw [hupd_self]

/-- A next-link store leaves other nodes untouched. -/
theorem setNext_ne (h : Heap α) (t : Nat) (x : Option Nat) {j : Nat}
    (hj : j ≠ t) : setNext h t x j = h j := by
  simp only [setNext]
  rw [hupd_ne _ _ _ hj]

/-- A prev-link store leaves other nodes untouched. -/
theorem setPrev_ne (h : Heap α) (t : Nat) (x : Option Nat) {j : Nat}
    (hj : j ≠ t) : setPrev h t x j = h j := by
  simp only [setPrev]
  rw [hupd_ne _ _ _ hj]

/-- Claim C6: pushing a value and immediately popping from the same end
returns the pushed node with its payload intact and restores the original
length; pushing onto an empty list and popping from the opposite end
returns that same single element. -/
theorem push_pop_roundtrip (st : ListState α) (i : Nat) (v : α) :
    ((popFront (pushFront st i v)).1 = some i ∧
      (popFront (pushFront st i v)).2.length = st.length ∧
      ((popFront (pushFront st i v)).2.heap i).val = v) ∧
    ((popBack (pushBack st i v)).1 = some i ∧
      (popBack (pushBack st i v)).2.length = st.length ∧
      ((popBack (pushBack st i v)).2.heap i).val = v) ∧
    (st.head = none →
      (popBack (pushFront st i v)).1 = some i ∧
      ((popBack (pushFront st i v)).2.heap i).val = v ∧
      (popBack (pushFront st i v)).2.length = st.length) ∧
    (st.tail = none →
      (popFront (pushBack st i v)).1 = some i ∧
      ((popFront (pushBack st i v)).2.heap i).val = v ∧
      (popFront (pushBack st i v)).2.length = st.length) := by
  refine ⟨?_, ?_, ?_, ?_⟩
  · cases hhd : st.head with
    | none => simp [popFront, pushFront, hhd, hupd]
    | some hd =>
        by_cases hih : i = hd
        · subst hih
          simp [popFront, pushFront, hhd, setPrev, hupd]
        · simp [popFront, pushFront, hhd, setPrev, hupd, hih, Ne.symm hih]
  · cases htl : st.tail with
    | none => simp [popBack, pushBack, htl, hupd]
    | some tl =>
        by_cases hit : i = tl
        · subst hit
          simp [popBack, pushBack, htl, setNext, hupd]
        · simp [popBack, pushBack, htl, setNext, hupd, hit, Ne.symm hit]
  · intro h
    simp [popBack, pushFront, h, hupd]
  · intro h
    simp [popFront, pushBack, h, hupd]

/-- Witness for C6: the round trips on the concrete list [10, 20] and on
the empty list. -/
theorem push_pop_roundtrip_witness :
    ((popFront (pushFront sampleList2 5 7)).1 = some 5 ∧
      (popFront (pushFront sampleList2 5 7)).2.length = sampleList2.length) ∧
    ((popBack (pushBack sampleList2 5 7)).1 = some 5) ∧
    ((popBack (pushFront (emptyList (0 : Nat)) 5 7)).1 = some 5 ∧
      ((popBack (pushFront (emptyList (0 : Nat)) 5 7)).2.heap 5).val = 7) ∧
    ((popFront (pushBack (emptyList (0 : Nat)) 5 7)).1 = some 5) := by
  refine ⟨?_, ?_, ?_, ?_⟩
  · exact ⟨(push_pop_roundtrip sampleList2 5 7).1.1,
      (push_pop_roundtrip sampleList2 5 7).1.2.1⟩
  · exact (push_pop_roundtrip sampleList2 5 7).2.1.1
  · have h := (push_pop_roundtrip (emptyList (0 : Nat)) 5 7).2.2.1 rfl
    exact ⟨h.1, h.2.1⟩
  · exact ((push_pop_roundtrip (emptyList (0 : Nat)) 5 7).2.2.2 rfl).1

/-- Claim C8: with `current` absent, `ListCursor::remove` is exactly
`pop_front` on the underlying list (cursor still before the first
element); otherwise, with current node C, it takes C's next link to find
the victim P, returns `None` if P is absent, and otherwise splices P out:
C becomes the list's tail when P had no successor, else successor N gets
`N.prev = C` and C gets `C.next = N`; the removed P is returned and the
cursor does not move. -/
theorem cursor_remove_spec (c : Cursor α) :
    (c.current = none →
      cursorRemove c = ((popFront c.list).1, ⟨(popFront c.list).2, none⟩)) ∧
    (∀ cur, c.current = some cur →
      ((c.list.heap cur).next = none → cursorRemove c = (none, c)) ∧
      (∀ p, (c.list.heap cur).next = some p → p ≠ cur →
        (cursorRemove c).1 = some p ∧
        (cursorRemove c).2.current = c.current ∧
        ((c.list.heap p).next = none →
          (cursorRemove c).2.list.tail = some cur ∧
          ((cursorRemove c).2.list.heap cur).next = none) ∧
        (∀ n, (c.list.heap p).next = some n →
          ((cursorRemove c).2.list.heap n).prev = some cur ∧
          ((cursorRemove c).2.list.heap cur).next = some n))) := by
  obtain ⟨lst, cu⟩ := c
  refine ⟨?_, ?_⟩
  · intro h
    replace h : cu = none := h
    subst h
    rfl
  · intro cur h
    replace h : cu = some cur := h
    subst h
    constructor
    · intro hn
      replace hn : (lst.heap cur).next = none := hn
      simp [cursorRemove, hn]
    · intro p hp hpc
      replace hp : (lst.heap cur).next = some p := hp
      have h1p : setNext lst.heap cur none p = lst.heap p :=
        setNext_ne lst.heap cur none hpc
      refine ⟨?_, ?_, ?_, ?_⟩
      · cases hq : (lst.heap p).next with
        | none => simp [cursorRemove, hp, h1p, hq]
        | some n => simp [cursorRemove, hp, h1p, hq]
      · cases hq : (lst.heap p).next with
        | none => simp [cursorRemove, hp, h1p, hq]
        | some n => simp [cursorRemove, hp, h1p, hq]
      · intro hq
        replace hq : (lst.heap p).next = none := hq
        simp only [cursorRemove, hp, h1p, hq]
        exact ⟨trivial, setNext_self lst.heap cur none⟩
      · intro n hq
        replace hq : (lst.heap p).next = some n := hq
        simp only [cursorRemove, hp, h1p, hq]
        constructor
        · show (setNext (setPrev (setNext lst.heap cur none) n (some cur))
              cur (some n) n).prev = some cur
          rw [setNext_prev, setPrev_self]
        · show (setNext (setPrev (setNext lst.heap cur none) n (some cur))
              cur (some n) cur).next = some n
          rw [setNext_self]

/-- Witness for C8: on the list [10, 20, 30], removing with the cursor
before the first element pops node 0, removing with the cursor on the
tail returns nothing, and removing with the cursor on node 0 splices out
node 1 and rewires nodes 0 and 2. -/
theorem cursor_remove_spec_witness :
    cursorRemove (⟨sampleList, none⟩ : Cursor Nat)
      = ((popFront sampleList).1, ⟨(popFront sampleList).2, none⟩) ∧
    cursorRemove (⟨sampleList, some 2⟩ : Cursor Nat)
      = (none, (⟨sampleList, some 2⟩ : Cursor Nat)) ∧
    ((cursorRemove (⟨sampleList, some 0⟩ : Cursor Nat)).1 = some 1 ∧
      (cursorRemove (⟨sampleList, some 0⟩ : Cursor Nat)).2.current = some 0 ∧
      ((cursorRemove (⟨sampleList, some 0⟩ : Cursor Nat)).2.list.heap 2).prev
        = some 0 ∧
      ((cursorRemove (⟨sampleList, some 0⟩ : Cursor Nat)).2.list.heap 0).next
        = some 2) := by
  refine ⟨?_, ?_, ?_⟩
  · exact (cursor_remove_spec (⟨sampleList, none⟩ : Cursor Nat)).1 rfl
  · exact ((cursor_remove_spec (⟨sampleList, some 2⟩ : Cursor Nat)).2 2 rfl).1 rfl
  · have h := ((cursor_remove_spec (⟨sampleList, some 0⟩ : Cursor Nat)).2 0 rfl).2
      1 rfl (by decide)
    exact ⟨h.1, h.2.1, (h.2.2.2 2 rfl).1, (h.2.2.2 2 rfl).2⟩

/-- Claim C9: `Entry::set` with a frame address having any bit set outside
the mask `0x000fffff_fffff000` hits the fatal assertion (modelled as
`none`, not a recoverable error value); with a well-formed address it
stores the address OR-ed with the flag bits. -/
theorem entry_set_spec (frame flags : Nat) (hframe : frame < 2 ^ 64) :
    (frame &&& frameMaskNot ≠ 0 → entrySet frame flags = none) ∧
    (frame &&& frameMaskNot = 0 → entrySet frame flags = some (frame ||| flags)) := by
  constructor
  · intro h
    simp [entrySet, h]
  · intro h
    simp [entrySet, h]

/-- Witness for C9: the misaligned address `0x123` is rejected fatally and
the well-formed address `0x2000` is stored OR-ed with flag bits 3. -/
theorem entry_set_spec_witness :
    ((0x123 &&& frameMaskNot ≠ 0) ∧ entrySet 0x123 3 = none) ∧
    ((0x2000 &&& frameMaskNot = 0) ∧ entrySet 0x2000 3 = some 0x2003) := by
  refine ⟨⟨?_, ?_⟩, ⟨?_, ?_⟩⟩
  · decide
  · exact (entry_set_spec 0x123 3 (by norm_num)).1 (by decide)
  · decide
  · have h := (entry_set_spec 0x2000 3 (by norm_num)).2 (by decide)
    rw [h]
    decide

/-- Claim C10: a node removed by `pop_front`, `pop_back` or
`ListCursor::remove` keeps its own prev/next link fields exactly as they
were while resident (in particular the node popped from the front still
carries a next link to the former second element), while of the remaining
resident nodes only the rewired neighbour links change: every other node
is untouched, and even the rewired nodes keep all their non-rewired
fields (the promoted neighbour's other link and payload for the pops; C's
prev link and payload, and N's next link and payload, for the cursor
splice). -/
theorem removed_node_link_frame (st : ListState α) (c : Cursor α) :
    (∀ hd, st.head = some hd →
      ((st.heap hd).next = none → (popFront st).2.heap = st.heap) ∧
      (∀ n, (st.heap hd).next = some n → n ≠ hd →
        (popFront st).2.heap hd = st.heap hd ∧
        ((popFront st).2.heap n).next = (st.heap n).next ∧
        ((popFront st).2.heap n).val = (st.heap n).val ∧
        (∀ j, j ≠ n → (popFront st).2.heap j = st.heap j))) ∧
    (∀ tl, st.tail = some tl →
      ((st.heap tl).prev = none → (popBack st).2.heap = st.heap) ∧
      (∀ p, (st.heap tl).prev = some p → p ≠ tl →
        (popBack st).2.heap tl = st.heap tl ∧
        ((popBack st).2.heap p).prev = (st.heap p).prev ∧
        ((popBack st).2.heap p).val = (st.heap p).val ∧
        (∀ j, j ≠ p → (popBack st).2.heap j = st.heap j))) ∧
    (∀ cur p, c.current = some cur → (c.list.heap cur).next = some p →
      p ≠ cur →
      ((c.list.heap p).next = none →
        (cursorRemove c).2.list.heap p = c.list.heap p ∧
        ((cursorRemove c).2.list.heap cur).prev = (c.list.heap cur).prev ∧
        ((cursorRemove c).2.list.heap cur).val = (c.list.heap cur).val ∧
        (∀ j, j ≠ cur → (cursorRemove c).2.list.heap j = c.list.heap j)) ∧
      (∀ n, (c.list.heap p).next = some n → p ≠ n → n ≠ cur →
        (cursorRemove c).2.list.heap p = c.list.heap p ∧
        ((cursorRemove c).2.list.heap cur).prev = (c.list.heap cur).prev ∧
        ((cursorRemove c).2.list.heap cur).val = (c.list.heap cur).val ∧
        ((cursorRemove c).2.list.heap n).next = (c.list.heap n).next ∧
        ((cursorRemove c).2.list.heap n).val = (c.list.heap n).val ∧
        (∀ j, j ≠ cur → j ≠ n →
          (cursorRemove c).2.list.heap j = c.list.heap j))) := by
  obtain ⟨sheap, shead, stail, slen⟩ := st
  obtain ⟨lst, cu⟩ := c
  refine ⟨?_, ?_, ?_⟩
  · intro hd h
    replace h : shead = some hd := h
    subst h
    constructor
    · intro hn
      replace hn : (sheap hd).next = none := hn
      simp only [popFront, hn]
    · intro n hn hnhd
      replace hn : (sheap hd).next = some n := hn
      simp only [popFront, hn]
      refine ⟨setPrev_ne sheap n none (Ne.symm hnhd), setPrev_next sheap n none n,
        setPrev_val sheap n none n, fun j hj => setPrev_ne sheap n none hj⟩
  · intro tl h
    replace h : stail = some tl := h
    subst h
    constructor
    · intro hp
      replace hp : (sheap tl).prev = none := hp
      simp only [popBack, hp]
    · intro p hp hptl
      replace hp : (sheap tl).prev = some p := hp
      simp only [popBack, hp]
      refine ⟨setNext_ne sheap p none (Ne.symm hptl), setNext_prev sheap p none p,
        setNext_val sheap p none p, fun j hj => setNext_ne sheap p none hj⟩
  · intro cur p h hp hpc
    replace h : cu = some cur := h
    subst h
    replace hp : (lst.heap cur).next = some p := hp
    have h1p : setNext lst.heap cur none p = lst.heap p :=
      setNext_ne lst.heap cur none hpc
    constructor
    · intro hq
      replace hq : (lst.heap p).next = none := hq
      simp only [cursorRemove, hp, h1p, hq]
      refine ⟨trivial, ?_, ?_, fun j hj => setNext_ne lst.heap cur none hj⟩
      · exact setNext_prev lst.heap cur none cur
      · exact setNext_val lst.heap cur none cur
    · intro n hq hpn hnc
      replace hq : (lst.heap p).next = some n := hq
      simp only [cursorRemove, hp, h1p, hq]
      refine ⟨?_, ?_, ?_, ?_, ?_, ?_⟩
      · show setNext (setPrev (setNext lst.heap cur none) n (some cur))
            cur (some n) p = lst.heap p
        rw [setNext_ne _ _ _ hpc, setPrev_ne _ _ _ hpn, setNext_ne _ _ _ hpc]
      · show (setNext (setPrev (setNext lst.heap cur none) n (some cur))
            cur (some n) cur).prev = (lst.heap cur).prev
        rw [setNext_prev, setPrev_ne _ _ _ (Ne.symm hnc), setNext_prev]
      · show (setNext (setPrev (setNext lst.heap cur none) n (some cur))
            cur (some n) cur).val = (lst.heap cur).val
        rw [setNext_val, setPrev_ne _ _ _ (Ne.symm hnc), setNext_val]
      · show (setNext (setPrev (setNext lst.heap cur none) n (some cur))
            cur (some n) n).next = (lst.heap n).next
        rw [setNext_ne _ _ _ hnc, setPrev_next, setNext_ne _ _ _ hnc]
      · show (setNext (setPrev (setNext lst.heap cur none) n (some cur))
            cur (some n) n).val = (lst.heap n).val
        rw [setNext_ne _ _ _ hnc, setPrev_val, setNext_ne _ _ _ hnc]
      · intro j hjc hjn
        show setNext (setPrev (setNext lst.heap cur none) n (some cur))
            cur (some n) j = lst.heap j
        rw [setNext_ne _ _ _ hjc, setPrev_ne _ _ _ hjn, setNext_ne _ _ _ hjc]

/-- Witness for C10: popping the front of [10, 20, 30] returns node 0
whose next link still addresses the former second element (node 1);
popping the back returns node 2 still linked to node 1; the cursor splice
leaves the victim node 1 still wired to nodes 0 and 2, and the rewired
nodes 0 and 2 keep their payloads and their non-rewired links. -/
theorem removed_node_link_frame_witness :
    ((popFront sampleList).2.heap 0).next = some 1 ∧
    ((popBack sampleList).2.heap 2).prev = some 1 ∧
    (cursorRemove (⟨sampleList, some 0⟩ : Cursor Nat)).2.list.heap 1
      = sampleList.heap 1 ∧
    ((cursorRemove (⟨sampleList, some 0⟩ : Cursor Nat)).2.list.heap 0).prev
      = (sampleList.heap 0).prev ∧
    ((cursorRemove (⟨sampleList, some 0⟩ : Cursor Nat)).2.list.heap 0).val
      = (sampleList.heap 0).val ∧
    ((cursorRemove (⟨sampleList, some 0⟩ : Cursor Nat)).2.list.heap 2).next
      = (sampleList.heap 2).next ∧
    ((cursorRemove (⟨sampleList, some 0⟩ : Cursor Nat)).2.list.heap 2).val
      = (sampleList.heap 2).val := by
  refine ⟨?_, ?_, ?_, ?_, ?_, ?_, ?_⟩
  · have h := ((removed_node_link_frame sampleList
      (⟨sampleList, some 0⟩ : Cursor Nat)).1 0 rfl).2 1 rfl (by decide)
    rw [h.1]
    rfl
  · have h := ((removed_node_link_frame sampleList
      (⟨sampleList, some 0⟩ : Cursor Nat)).2.1 2 rfl).2 1 rfl (by decide)
    rw [h.1]
    rfl
  · exact (((removed_node_link_frame sampleList
      (⟨sampleList, some 0⟩ : Cursor Nat)).2.2 0 1 rfl rfl (by decide)).2
      2 rfl (by decide) (by decide)).1
  · exact (((removed_node_link_frame sampleList
      (⟨sampleList, some 0⟩ : Cursor Nat)).2.2 0 1 rfl rfl (by decide)).2
      2 rfl (by decide) (by decide)).2.1
  · exact (((removed_node_link_frame sampleList
      (⟨sampleList, some 0⟩ : Cursor Nat)).2.2 0 1 rfl rfl (by decide)).2
      2 rfl (by decide) (by decide)).2.2.1
  · exact (((removed_node_link_frame sampleList
      (⟨sampleList, some 0⟩ : Cursor Nat)).2.2 0 1 rfl rfl (by decide)).2
      2 rfl (by decide) (by decide)).2.2.2.1
  · exact (((removed_node_link_frame sampleList
      (⟨sampleList, some 0⟩ : Cursor Nat)).2.2 0 1 rfl rfl (by decide)).2
      2 rfl (by decide) (by decide)).2.2.2.2.1
